import Mathlib

/-!
Verification of the jqEye geometry engine and tracking pipeline.

The four clamp functions (`rectangle_position`, `circle_position`,
`ellipse_position`, `rounded_rectangle_position`) are shallow embeddings,
over the real numbers, of the private functions of the same names in
`Source/jqeye.js`.  `clamp_step` embeds the shape dispatch of the
mousemove handler and `mousemove_position` the whole per-event pipeline
(pointer position to written `left`/`top` pair).
-/

namespace JqEye

/-- Embedding of `rectangle_position(x, y, width, height)`: the result
starts at the input and each of the four `if` statements of the source
overwrites one coordinate, each test reading the original coordinate. -/
noncomputable def rectangle_position (x y width height : ℝ) : ℝ × ℝ :=
  let rx1 := if x > width / 2 then width / 2 else x
  let rx2 := if x < -(width / 2) then -(width / 2) else rx1
  let ry1 := if y > height / 2 then height / 2 else y
  let ry2 := if y < -(height / 2) then -(height / 2) else ry1
  (rx2, ry2)

/-- Embedding of `circle_position(x, y, r)`: outside test `x*x+y*y > r*r`,
ray intersection via the slope `m = y/x` when `x !== 0`, degenerate
vertical branch otherwise. -/
noncomputable def circle_position (x y r : ℝ) : ℝ × ℝ :=
  if x * x + y * y > r * r then
    if x ≠ 0 then
      let m := y / x
      let rx0 := Real.sqrt (r * r / (m * m + 1))
      let rx := if x > 0 then rx0 else -rx0
      let ry0 := |m * rx|
      let ry := if y > 0 then ry0 else -ry0
      (rx, ry)
    else
      (0, if y > 0 then r else -r)
  else (x, y)

/-- Embedding of `ellipse_position(x, y, a, b)`: outside test
`(x*x)/(a*a) + (y*y)/(b*b) > 1`, same ray structure as the circle. -/
noncomputable def ellipse_position (x y a b : ℝ) : ℝ × ℝ :=
  if (x * x) / (a * a) + (y * y) / (b * b) > 1 then
    if x ≠ 0 then
      let m := y / x
      let rx0 := Real.sqrt (1 / (1 / (a * a) + (m * m) / (b * b)))
      let rx := if x > 0 then rx0 else -rx0
      let ry0 := |m * rx|
      let ry := if y > 0 then ry0 else -ry0
      (rx, ry)
    else
      (0, if y > 0 then b else -b)
  else (x, y)

/-- Embedding of `rounded_rectangle_position(x, y, width, height, radius)`:
corner region when both absolute coordinates strictly exceed the limits,
otherwise the plain rectangle clamp. -/
noncomputable def rounded_rectangle_position (x y width height radius : ℝ) : ℝ × ℝ :=
  let limit_x := width / 2 - radius
  let limit_y := height / 2 - radius
  if |x| > limit_x ∧ |y| > limit_y then
    let cir := circle_position (|x| - limit_x) (|y| - limit_y) radius
    (if x > 0 then cir.1 + limit_x else -(cir.1 + limit_x),
     if y > 0 then cir.2 + limit_y else -(cir.2 + limit_y))
  else
    rectangle_position x y width height

/-- Embedding of the shape dispatch in the mousemove handler (lines 76-95):
four sequential `if` statements on `settings.shape`, each rewriting the
working position; an unrecognized shape leaves it untouched. -/
noncomputable def clamp_step (shape : String) (radius width height : ℝ)
    (pos : ℝ × ℝ) : ℝ × ℝ :=
  let p1 := if shape = "rectangle" then
      rectangle_position pos.1 pos.2 width height else pos
  let p2 := if shape = "circle" then
      circle_position p1.1 p1.2 radius else p1
  let p3 := if shape = "ellipse" then
      ellipse_position p2.1 p2.2 (width / 2) (height / 2) else p2
  if shape = "rounded rectangle" then
    rounded_rectangle_position p3.1 p3.2 width height radius else p3

/-- Embedding of the whole mousemove handler: viewport pointer position to
the `left`/`top` pair written to the pupil's style. -/
noncomputable def mousemove_position (shape : String)
    (radius width height : ℝ)
    (abs_center_x abs_center_y center_x center_y : ℝ)
    (pupil_width pupil_height scroll_left scroll_top : ℝ)
    (mouse_x mouse_y : ℝ) : ℝ × ℝ :=
  let pos_x := mouse_x - abs_center_x + scroll_left
  let pos_y := mouse_y - abs_center_y + scroll_top
  let p := clamp_step shape radius width height (pos_x, pos_y)
  (p.1 + center_x - pupil_width / 2, p.2 + center_y - pupil_height / 2)

/-- One-dimensional clamp of the rectangle code equals the usual
`max`/`min` clamp whenever the extent is non-negative. -/
lemma rect_axis_clamp (w x : ℝ) (hw : 0 ≤ w) :
    (if x < -(w / 2) then -(w / 2) else if x > w / 2 then w / 2 else x)
      = max (-(w / 2)) (min x (w / 2)) := by
  have h2 : -(w / 2) ≤ w / 2 := by linarith
  split_ifs with h1 h3
  · rw [min_eq_left (by linarith), max_eq_left (by linarith)]
  · rw [min_eq_right (by linarith), max_eq_right h2]
  · rw [min_eq_left (by linarith), max_eq_right (by linarith)]

lemma rectangle_position_eq_clamp (x y w h : ℝ) (hw : 0 ≤ w) (hh : 0 ≤ h) :
    rectangle_position x y w h
      = (max (-(w / 2)) (min x (w / 2)), max (-(h / 2)) (min y (h / 2))) := by
  unfold rectangle_position
  simp only
  rw [Prod.mk.injEq]
  constructor
  · exact rect_axis_clamp w x hw
  · exact rect_axis_clamp h y hh

/-- C3: the rectangle clamp, invoked with full width `w` and full height
`h` (both non-negative), stays within the half-extent box
`[-w/2, w/2] × [-h/2, h/2]`, clamps each axis independently to that
interval, returns interior points unchanged, and sends `(50, 10)` with a
`40 × 40` box to `(20, 10)`. -/
theorem rectangle_clamp_spec (w h : ℝ) (hw : 0 ≤ w) (hh : 0 ≤ h) (x y : ℝ) :
    ((rectangle_position x y w h).1 = max (-(w / 2)) (min x (w / 2)) ∧
     (rectangle_position x y w h).2 = max (-(h / 2)) (min y (h / 2))) ∧
    (-(w / 2) ≤ (rectangle_position x y w h).1 ∧
      (rectangle_position x y w h).1 ≤ w / 2) ∧
    (-(h / 2) ≤ (rectangle_position x y w h).2 ∧
      (rectangle_position x y w h).2 ≤ h / 2) ∧
    (-(w / 2) ≤ x ∧ x ≤ w / 2 ∧ -(h / 2) ≤ y ∧ y ≤ h / 2 →
      rectangle_position x y w h = (x, y)) ∧
    rectangle_position 50 10 40 40 = (20, 10) := by
  have hx := rectangle_position_eq_clamp x y w h hw hh
  refine ⟨⟨by rw [hx], by rw [hx]⟩, ?_, ?_, ?_, ?_⟩
  · rw [hx]
    constructor
    · exact le_max_left _ _
    · exact max_le (by linarith) (min_le_right _ _)
  · rw [hx]
    constructor
    · exact le_max_left _ _
    · exact max_le (by linarith) (min_le_right _ _)
  · rintro ⟨h1, h2, h3, h4⟩
    rw [hx, Prod.mk.injEq]
    constructor
    · rw [min_eq_left h2, max_eq_right h1]
    · rw [min_eq_left h4, max_eq_right h3]
  · rw [rectangle_position_eq_clamp 50 10 40 40 (by norm_num) (by norm_num)]
    norm_num

theorem rectangle_clamp_spec_witness :
    rectangle_position 50 10 40 40 = (20, 10) :=
  (rectangle_clamp_spec 40 40 (by norm_num) (by norm_num) 50 10).2.2.2.2

lemma sqrt_four_hundred : Real.sqrt 400 = 20 := by
  have h : (400 : ℝ) = 20 ^ 2 := by norm_num
  rw [h, Real.sqrt_sq (by norm_num)]

/-- In the exterior `x ≠ 0` branch, the squared norm of the output is
exactly `r ^ 2`. -/
lemma circle_position_outside_sq (r x y : ℝ) (hout : x * x + y * y > r * r)
    (hx : x ≠ 0) :
    (circle_position x y r).1 ^ 2 + (circle_position x y r).2 ^ 2 = r ^ 2 := by
  unfold circle_position
  rw [if_pos hout, if_pos hx]
  simp only
  set m := y / x with hm
  have hden : (0 : ℝ) < m * m + 1 := by nlinarith [mul_self_nonneg m]
  have hsq : Real.sqrt (r * r / (m * m + 1)) ^ 2 = r * r / (m * m + 1) :=
    Real.sq_sqrt (div_nonneg (mul_self_nonneg r) hden.le)
  set s := Real.sqrt (r * r / (m * m + 1)) with hs
  have key : ∀ u : ℝ, u ^ 2 = s ^ 2 → u ^ 2 + |m * u| ^ 2 = r ^ 2 := by
    intro u hu
    have hne : m * m + 1 ≠ 0 := ne_of_gt hden
    rw [sq_abs, mul_pow, hu, hsq]
    field_simp
    ring
  split_ifs with h1 h2 h3 <;>
    (try simp only [neg_sq, mul_neg, abs_neg]) <;>
    exact key s rfl

lemma circle_position_inside (r x y : ℝ) (h : ¬(x * x + y * y > r * r)) :
    circle_position x y r = (x, y) := by
  unfold circle_position
  rw [if_neg h]

lemma circle_position_outside_norm (r x y : ℝ)
    (hout : x * x + y * y > r * r) :
    (circle_position x y r).1 ^ 2 + (circle_position x y r).2 ^ 2 = r ^ 2 := by
  by_cases hx : x ≠ 0
  · exact circle_position_outside_sq r x y hout hx
  · push_neg at hx
    unfold circle_position
    rw [if_pos hout, if_neg (by simpa using hx)]
    split_ifs <;> simp [neg_sq]

lemma circle_eval_thirty : circle_position 30 0 20 = (20, 0) := by
  unfold circle_position
  rw [if_pos (by norm_num), if_pos (by norm_num : (30 : ℝ) ≠ 0)]
  have hm : (0 : ℝ) / 30 = 0 := by norm_num
  simp only [hm]
  have harg : (20 : ℝ) * 20 / (0 * 0 + 1) = 400 := by norm_num
  rw [harg, sqrt_four_hundred]
  norm_num

/-- C1: for `r ≥ 0` the circle clamp stays within the disc `x² + y² ≤ r²`,
lands exactly on the boundary whenever the input was strictly outside,
returns any input inside or on the boundary unchanged, and in particular
sends `(0, 0)` to `(0, 0)` and `(30, 0)` (radius 20) to `(20, 0)`. -/
theorem circle_clamp_spec (r : ℝ) (hr : 0 ≤ r) (x y : ℝ) :
    ((circle_position x y r).1 ^ 2 + (circle_position x y r).2 ^ 2 ≤ r ^ 2) ∧
    (x * x + y * y > r * r →
      (circle_position x y r).1 ^ 2 + (circle_position x y r).2 ^ 2 = r ^ 2) ∧
    (x * x + y * y ≤ r * r → circle_position x y r = (x, y)) ∧
    circle_position 0 0 20 = (0, 0) ∧
    circle_position 30 0 20 = (20, 0) := by
  refine ⟨?_, fun hout => circle_position_outside_norm r x y hout, ?_, ?_, circle_eval_thirty⟩
  · by_cases hout : x * x + y * y > r * r
    · exact le_of_eq (circle_position_outside_norm r x y hout)
    · rw [circle_position_inside r x y hout]
      push_neg at hout
      nlinarith [hout]
  · intro hin
    exact circle_position_inside r x y (by linarith)
  · exact circle_position_inside 20 0 0 (by norm_num)

theorem circle_clamp_spec_witness :
    (0 : ℝ) ≤ 20 ∧ circle_position 30 0 20 = (20, 0) :=
  ⟨by norm_num, (circle_clamp_spec 20 (by norm_num) 30 0).2.2.2.2⟩

lemma ellipse_position_inside (a b x y : ℝ)
    (h : ¬((x * x) / (a * a) + (y * y) / (b * b) > 1)) :
    ellipse_position x y a b = (x, y) := by
  unfold ellipse_position
  rw [if_neg h]

/-- For a strictly outside input the ellipse clamp lands exactly on the
ellipse `(x/a)² + (y/b)² = 1`. -/
lemma ellipse_position_outside_one (a b x y : ℝ) (ha : 0 < a) (hb : 0 < b)
    (hout : (x * x) / (a * a) + (y * y) / (b * b) > 1) :
    ((ellipse_position x y a b).1 / a) ^ 2
      + ((ellipse_position x y a b).2 / b) ^ 2 = 1 := by
  unfold ellipse_position
  rw [if_pos hout]
  by_cases hx : x ≠ 0
  · rw [if_pos hx]
    simp only
    set m := y / x with hm
    have ha2 : (0 : ℝ) < a * a := mul_pos ha ha
    have hb2 : (0 : ℝ) < b * b := mul_pos hb hb
    have hD : (0 : ℝ) < 1 / (a * a) + m * m / (b * b) := by
      have h1 : (0 : ℝ) < 1 / (a * a) := by positivity
      have h2 : (0 : ℝ) ≤ m * m / (b * b) :=
        div_nonneg (mul_self_nonneg m) hb2.le
      linarith
    have hsq : Real.sqrt (1 / (1 / (a * a) + m * m / (b * b))) ^ 2
        = 1 / (1 / (a * a) + m * m / (b * b)) :=
      Real.sq_sqrt (le_of_lt (one_div_pos.mpr hD))
    set s := Real.sqrt (1 / (1 / (a * a) + m * m / (b * b))) with hs
    have key : ∀ u v : ℝ, u ^ 2 = s ^ 2 → v ^ 2 = |m * u| ^ 2 →
        (u / a) ^ 2 + (v / b) ^ 2 = 1 := by
      intro u v hu hv
      have hexp : (u / a) ^ 2 + (v / b) ^ 2
          = u ^ 2 * (1 / (a * a)) + v ^ 2 * (1 / (b * b)) := by
        rw [div_pow, div_pow]
        field_simp
        ring
      rw [hexp, hv, sq_abs, mul_pow, hu, hsq]
      have hDinv : (1 / (1 / (a * a) + m * m / (b * b)))
          * (1 / (a * a) + m * m / (b * b)) = 1 :=
        one_div_mul_cancel (ne_of_gt hD)
      linear_combination hDinv
    split_ifs with h1 h2 h3
    · exact key s (|m * s|) rfl rfl
    · exact key s (-|m * s|) rfl (neg_sq _)
    · exact key (-s) (|m * -s|) (neg_sq s) rfl
    · exact key (-s) (-|m * -s|) (neg_sq s) (neg_sq _)
  · rw [if_neg hx]
    simp only
    split_ifs
    · rw [div_self (ne_of_gt hb)]
      norm_num
    · rw [neg_div, div_self (ne_of_gt hb)]
      norm_num

lemma ellipse_eval_vertical : ellipse_position 0 15 20 10 = (0, 10) := by
  unfold ellipse_position
  rw [if_pos (by norm_num), if_neg (by norm_num)]
  norm_num

/-- C5: for semi-axes `a, b > 0` the ellipse clamp stays within
`(x/a)² + (y/b)² ≤ 1`, returns inputs already inside unchanged, and in
particular sends `(0, 15)` with semi-axes `(20, 10)` to `(0, 10)`. -/
theorem ellipse_clamp_spec (a b : ℝ) (ha : 0 < a) (hb : 0 < b) (x y : ℝ) :
    (((ellipse_position x y a b).1 / a) ^ 2
      + ((ellipse_position x y a b).2 / b) ^ 2 ≤ 1) ∧
    ((x / a) ^ 2 + (y / b) ^ 2 ≤ 1 → ellipse_position x y a b = (x, y)) ∧
    ellipse_position 0 15 20 10 = (0, 10) := by
  have hconv : ∀ u c : ℝ, (u / c) ^ 2 = u * u / (c * c) := by
    intro u c
    rw [div_pow, pow_two, pow_two]
  by_cases hout : (x * x) / (a * a) + (y * y) / (b * b) > 1
  · refine ⟨le_of_eq (ellipse_position_outside_one a b x y ha hb hout),
      ?_, ellipse_eval_vertical⟩
    intro hin
    rw [hconv, hconv] at hin
    linarith
  · have hfix := ellipse_position_inside a b x y hout
    refine ⟨?_, fun _ => hfix, ellipse_eval_vertical⟩
    rw [hfix]
    simp only
    rw [hconv, hconv]
    push_neg at hout
    linarith

theorem ellipse_clamp_spec_witness :
    (0 : ℝ) < 20 ∧ (0 : ℝ) < 10 ∧ ellipse_position 0 15 20 10 = (0, 10) :=
  ⟨by norm_num, by norm_num,
    (ellipse_clamp_spec 20 10 (by norm_num) (by norm_num) 0 15).2.2⟩

lemma circle_position_zero_x (r y : ℝ) (hout : 0 * 0 + y * y > r * r) :
    circle_position 0 y r = (0, if y > 0 then r else -r) := by
  unfold circle_position
  rw [if_pos hout, if_neg (by simp)]

lemma ellipse_position_zero_x (a b y : ℝ)
    (hout : (0 * 0) / (a * a) + (y * y) / (b * b) > 1) :
    ellipse_position 0 y a b = (0, if y > 0 then b else -b) := by
  unfold ellipse_position
  rw [if_pos hout, if_neg (by simp)]

lemma circle_position_origin (r : ℝ) : circle_position 0 0 r = (0, 0) := by
  unfold circle_position
  rw [if_neg (by nlinarith [mul_self_nonneg r])]

lemma ellipse_position_origin (a b : ℝ) : ellipse_position 0 0 a b = (0, 0) := by
  unfold ellipse_position
  rw [if_neg (by norm_num)]

/-- C7 (amended): in the exterior `x = 0` branch the circle clamp returns
`(0, r)` when `y > 0` and `(0, -r)` otherwise, and the ellipse clamp
analogously returns `(0, ±b)`; the origin `(0, 0)`, however, never
satisfies the exterior test, so both clamps return it unchanged as
`(0, 0)` rather than `(0, r)` or `(0, b)`. -/
theorem degenerate_zero_x_spec (r a b y : ℝ) :
    (0 * 0 + y * y > r * r →
      circle_position 0 y r = (0, if y > 0 then r else -r)) ∧
    ((0 * 0) / (a * a) + (y * y) / (b * b) > 1 →
      ellipse_position 0 y a b = (0, if y > 0 then b else -b)) ∧
    circle_position 0 0 r = (0, 0) ∧
    ellipse_position 0 0 a b = (0, 0) :=
  ⟨circle_position_zero_x r y, ellipse_position_zero_x a b y,
    circle_position_origin r, ellipse_position_origin a b⟩

theorem degenerate_zero_x_spec_witness :
    circle_position 0 30 20 = (0, 20) ∧ ellipse_position 0 15 20 10 = (0, 10) := by
  have h1 := (degenerate_zero_x_spec 20 20 10 30).1 (by norm_num)
  have h2 := (degenerate_zero_x_spec 20 20 10 15).2.1 (by norm_num)
  rw [if_pos (by norm_num : (30 : ℝ) > 0)] at h1
  rw [if_pos (by norm_num : (15 : ℝ) > 0)] at h2
  exact ⟨h1, h2⟩

/-- C7 counterexample: the claim asserts that the input `(0, 0)` yields
`(0, +r)` for the circle and `(0, b)` for the ellipse, but the origin
never passes the exterior test, so both clamps return it unchanged. -/
theorem degenerate_zero_x_cex :
    circle_position 0 0 20 = (0, 0) ∧
    circle_position 0 0 20 ≠ ((0 : ℝ), (20 : ℝ)) ∧
    ellipse_position 0 0 20 10 = (0, 0) ∧
    ellipse_position 0 0 20 10 ≠ ((0 : ℝ), (10 : ℝ)) := by
  have h1 := circle_position_origin 20
  have h2 := ellipse_position_origin 20 10
  refine ⟨h1, ?_, h2, ?_⟩
  · rw [h1]
    intro h
    rw [Prod.mk.injEq] at h
    exact absurd h.2 (by norm_num)
  · rw [h2]
    intro h
    rw [Prod.mk.injEq] at h
    exact absurd h.2 (by norm_num)

/-- The sign-splitting idiom `y > 0 ? |c*y| : -|c*y|` of the source
reproduces `c * y` whenever the scale `c` is non-negative. -/
lemma signed_abs_eq (c y : ℝ) (hc : 0 ≤ c) :
    (if y > 0 then |c * y| else -|c * y|) = c * y := by
  rcases lt_trichotomy y 0 with h | h | h
  · rw [if_neg (by linarith), abs_mul, abs_of_nonneg hc, abs_of_neg h]
    ring
  · rw [h, if_neg (lt_irrefl 0), mul_zero, abs_zero, neg_zero]
  · rw [if_pos h, abs_mul, abs_of_nonneg hc, abs_of_pos h]

/-- C6 (amended to strictly positive radius): for `r > 0` and `(x, y)`
not both zero, the circle clamp's output lies on the same ray from the
origin as the input — it is a positive scalar multiple of the input, so
`atan2`, the sign of each coordinate, and the slope are all preserved. -/
theorem circle_clamp_ray_spec (r : ℝ) (hr : 0 < r) (x y : ℝ)
    (hxy : ¬(x = 0 ∧ y = 0)) :
    ∃ t : ℝ, 0 < t ∧ circle_position x y r = (t * x, t * y) := by
  by_cases hout : x * x + y * y > r * r
  · by_cases hx : x = 0
    · subst hx
      have hy : y ≠ 0 := fun h => hxy ⟨rfl, h⟩
      rw [circle_position_zero_x r y hout]
      rcases lt_or_gt_of_ne hy with hneg | hpos
      · refine ⟨r / (-y), div_pos hr (by linarith), ?_⟩
        rw [if_neg (by linarith), Prod.mk.injEq]
        constructor
        · ring
        · rw [div_neg, neg_mul, div_mul_eq_mul_div, mul_div_assoc,
            div_self hy, mul_one]
      · refine ⟨r / y, div_pos hr hpos, ?_⟩
        rw [if_pos hpos, Prod.mk.injEq]
        constructor
        · ring
        · field_simp
    · have habs : (0 : ℝ) < |x| := abs_pos.mpr hx
      unfold circle_position
      rw [if_pos hout, if_pos hx]
      simp only
      set m := y / x with hm
      have hden : (0 : ℝ) < m * m + 1 := by nlinarith [mul_self_nonneg m]
      set s := Real.sqrt (r * r / (m * m + 1)) with hs
      have hspos : (0 : ℝ) < s :=
        Real.sqrt_pos.mpr (div_pos (mul_pos hr hr) hden)
      have hcnn : (0 : ℝ) ≤ s / |x| := (div_pos hspos habs).le
      have hxc : (if x > 0 then s else -s) = s / |x| * x := by
        rcases lt_or_gt_of_ne hx with hneg | hpos
        · rw [if_neg (by linarith), abs_of_neg hneg]
          rw [div_neg, neg_mul, div_mul_eq_mul_div, mul_div_assoc,
            div_self hx, mul_one]
        · rw [if_pos hpos, abs_of_pos hpos]
          field_simp
      refine ⟨s / |x|, div_pos hspos habs, ?_⟩
      rw [Prod.mk.injEq]
      refine ⟨hxc, ?_⟩
      rw [hxc]
      have hmy : m * (s / |x| * x) = s / |x| * y := by
        rw [hm]
        field_simp
        ring
      rw [hmy]
      exact signed_abs_eq (s / |x|) y hcnn
  · exact ⟨1, one_pos, by rw [circle_position_inside r x y hout]; simp⟩

theorem circle_clamp_ray_spec_witness :
    ∃ t : ℝ, 0 < t ∧ circle_position 30 0 20 = (t * 30, t * 0) :=
  circle_clamp_ray_spec 20 (by norm_num) 30 0 (by norm_num)

/-- C6 counterexample: the claim quantifies over every radius `r ≥ 0`,
but with `r = 0` the exterior input `(1, 1)` is sent to the origin
`(0, 0)`, which lies on no ray through `(1, 1)` and does not preserve the
sign of `x`. -/
theorem circle_clamp_ray_cex :
    circle_position 1 1 0 = (0, 0) ∧
    ¬∃ t : ℝ, 0 < t ∧ circle_position 1 1 0 = (t * 1, t * 1) := by
  have heval : circle_position 1 1 0 = (0, 0) := by
    unfold circle_position
    rw [if_pos (by norm_num), if_pos (by norm_num : (1 : ℝ) ≠ 0)]
    norm_num [Real.sqrt_zero]
  refine ⟨heval, ?_⟩
  rintro ⟨t, ht, heq⟩
  rw [heval, Prod.mk.injEq] at heq
  have h1 := heq.1
  rw [mul_one] at h1
  exact absurd h1.symm (ne_of_gt ht)

/-- One axis of the rectangle clamp is odd in its input. -/
lemma axis_clamp_neg (w x : ℝ) (hw : 0 ≤ w) :
    max (-(w / 2)) (min (-x) (w / 2)) = -max (-(w / 2)) (min x (w / 2)) := by
  rcases le_total x (-(w / 2)) with h1 | h1
  · have e1 : min x (w / 2) = x := min_eq_left (by linarith)
    have e2 : max (-(w / 2)) x = -(w / 2) := max_eq_left h1
    have e3 : min (-x) (w / 2) = w / 2 := min_eq_right (by linarith)
    have e4 : max (-(w / 2)) (w / 2) = w / 2 := max_eq_right (by linarith)
    rw [e1, e2, e3, e4, neg_neg]
  · rcases le_total (w / 2) x with h2 | h2
    · have e1 : min x (w / 2) = w / 2 := min_eq_right h2
      have e2 : max (-(w / 2)) (w / 2) = w / 2 := max_eq_right (by linarith)
      have e3 : min (-x) (w / 2) = -x := min_eq_left (by linarith)
      have e4 : max (-(w / 2)) (-x) = -(w / 2) := max_eq_left (by linarith)
      rw [e1, e2, e3, e4]
    · have e1 : min x (w / 2) = x := min_eq_left h2
      have e2 : max (-(w / 2)) x = x := max_eq_right h1
      have e3 : min (-x) (w / 2) = -x := min_eq_left (by linarith)
      have e4 : max (-(w / 2)) (-x) = -x := max_eq_right (by linarith)
      rw [e1, e2, e3, e4]

lemma rectangle_position_neg (x y w h : ℝ) (hw : 0 ≤ w) (hh : 0 ≤ h) :
    rectangle_position (-x) (-y) w h = -rectangle_position x y w h := by
  rw [rectangle_position_eq_clamp (-x) (-y) w h hw hh,
    rectangle_position_eq_clamp x y w h hw hh, Prod.neg_mk, Prod.mk.injEq]
  exact ⟨axis_clamp_neg w x hw, axis_clamp_neg h y hh⟩

/-- Negating both inputs of the exterior ray branch negates both outputs,
for any scale `S`, provided the slope `m` vanishes with `y`. -/
lemma signed_branch_neg (x y S m : ℝ) (hx : x ≠ 0) (hm : y = 0 → m = 0) :
    ((if -x > 0 then S else -S : ℝ),
      (if -y > 0 then |m * (if -x > 0 then S else -S)|
        else -|m * (if -x > 0 then S else -S)| : ℝ))
    = -((if x > 0 then S else -S),
        if y > 0 then |m * (if x > 0 then S else -S)|
        else -|m * (if x > 0 then S else -S)|) := by
  have hxc : (if -x > 0 then S else -S : ℝ) = -(if x > 0 then S else -S) := by
    rcases lt_or_gt_of_ne hx with hneg | hpos
    · rw [if_pos (by linarith : -x > 0), if_neg (by linarith : ¬x > 0), neg_neg]
    · rw [if_neg (by linarith : ¬(-x > 0)), if_pos hpos]
  rw [Prod.neg_mk, Prod.mk.injEq]
  refine ⟨hxc, ?_⟩
  rw [hxc, mul_neg, abs_neg]
  rcases lt_trichotomy y 0 with hneg | hzero | hpos
  · rw [if_pos (by linarith : -y > 0), if_neg (by linarith : ¬y > 0), neg_neg]
  · rw [hm hzero]
    simp
  · rw [if_neg (by linarith : ¬(-y > 0)), if_pos hpos]

lemma circle_position_neg (r x y : ℝ) :
    circle_position (-x) (-y) r = -circle_position x y r := by
  by_cases hout : x * x + y * y > r * r
  · have hout2 : -x * -x + -y * -y > r * r := by
      rw [show -x * -x + -y * -y = x * x + y * y from by ring]
      exact hout
    by_cases hx : x = 0
    · subst hx
      have hy : y ≠ 0 := by
        rintro rfl
        nlinarith [mul_self_nonneg r, hout]
      rw [neg_zero, circle_position_zero_x r y hout,
        circle_position_zero_x r (-y)
          (by rw [show (0 : ℝ) * 0 + -y * -y = 0 * 0 + y * y from by ring]
              exact hout),
        Prod.neg_mk, neg_zero, Prod.mk.injEq]
      refine ⟨rfl, ?_⟩
      rcases lt_or_gt_of_ne hy with hneg | hpos
      · rw [if_pos (by linarith : -y > 0), if_neg (by linarith : ¬y > 0), neg_neg]
      · rw [if_neg (by linarith : ¬(-y > 0)), if_pos hpos]
    · have hx2 : -x ≠ 0 := neg_ne_zero.mpr hx
      unfold circle_position
      rw [if_pos hout2, if_pos hx2, if_pos hout, if_pos hx]
      simp only
      rw [neg_div_neg_eq]
      exact signed_branch_neg x y
        (Real.sqrt (r * r / (y / x * (y / x) + 1))) (y / x) hx
        (fun hy0 => by rw [hy0, zero_div])
  · have hout2 : ¬(-x * -x + -y * -y > r * r) := by
      rw [show -x * -x + -y * -y = x * x + y * y from by ring]
      exact hout
    rw [circle_position_inside r x y hout,
      circle_position_inside r (-x) (-y) hout2, Prod.neg_mk]

lemma ellipse_position_neg (a b x y : ℝ) :
    ellipse_position (-x) (-y) a b = -ellipse_position x y a b := by
  by_cases hout : (x * x) / (a * a) + (y * y) / (b * b) > 1
  · have hout2 : (-x * -x) / (a * a) + (-y * -y) / (b * b) > 1 := by
      rw [show (-x * -x) / (a * a) + (-y * -y) / (b * b)
          = (x * x) / (a * a) + (y * y) / (b * b) from by ring]
      exact hout
    by_cases hx : x = 0
    · subst hx
      have hy : y ≠ 0 := by
        rintro rfl
        norm_num at hout
      rw [neg_zero, ellipse_position_zero_x a b y hout,
        ellipse_position_zero_x a b (-y)
          (by rw [show ((0 : ℝ) * 0) / (a * a) + (-y * -y) / (b * b)
                = (0 * 0) / (a * a) + (y * y) / (b * b) from by ring]
              exact hout),
        Prod.neg_mk, neg_zero, Prod.mk.injEq]
      refine ⟨rfl, ?_⟩
      rcases lt_or_gt_of_ne hy with hneg | hpos
      · rw [if_pos (by linarith : -y > 0), if_neg (by linarith : ¬y > 0), neg_neg]
      · rw [if_neg (by linarith : ¬(-y > 0)), if_pos hpos]
    · have hx2 : -x ≠ 0 := neg_ne_zero.mpr hx
      unfold ellipse_position
      rw [if_pos hout2, if_pos hx2, if_pos hout, if_pos hx]
      simp only
      rw [neg_div_neg_eq]
      exact signed_branch_neg x y
        (Real.sqrt (1 / (1 / (a * a) + y / x * (y / x) / (b * b)))) (y / x) hx
        (fun hy0 => by rw [hy0, zero_div])
  · have hout2 : ¬((-x * -x) / (a * a) + (-y * -y) / (b * b) > 1) := by
      rw [show (-x * -x) / (a * a) + (-y * -y) / (b * b)
          = (x * x) / (a * a) + (y * y) / (b * b) from by ring]
      exact hout
    rw [ellipse_position_inside a b x y hout,
      ellipse_position_inside a b (-x) (-y) hout2, Prod.neg_mk]

lemma rounded_rectangle_position_neg (x y w h r : ℝ) (hw : 0 ≤ w)
    (hh : 0 ≤ h) (hrw : r ≤ w / 2) (hrh : r ≤ h / 2) :
    rounded_rectangle_position (-x) (-y) w h r
      = -rounded_rectangle_position x y w h r := by
  unfold rounded_rectangle_position
  simp only
  rw [abs_neg, abs_neg]
  by_cases hcor : |x| > w / 2 - r ∧ |y| > h / 2 - r
  · rw [if_pos hcor, if_pos hcor]
    have hx : x ≠ 0 := by
      rintro rfl
      rw [abs_zero] at hcor
      have := hcor.1
      linarith
    have hy : y ≠ 0 := by
      rintro rfl
      rw [abs_zero] at hcor
      have := hcor.2
      linarith
    rw [Prod.neg_mk, Prod.mk.injEq]
    constructor
    · rcases lt_or_gt_of_ne hx with hneg | hpos
      · rw [if_pos (by linarith : -x > 0), if_neg (by linarith : ¬x > 0), neg_neg]
      · rw [if_neg (by linarith : ¬(-x > 0)), if_pos hpos]
    · rcases lt_or_gt_of_ne hy with hneg | hpos
      · rw [if_pos (by linarith : -y > 0), if_neg (by linarith : ¬y > 0), neg_neg]
      · rw [if_neg (by linarith : ¬(-y > 0)), if_pos hpos]
  · rw [if_neg hcor, if_neg hcor]
    exact rectangle_position_neg x y w h hw hh

/-- C9: each of the four shape clamps, with non-negative extents and a
corner radius at most both half-extents for the rounded rectangle,
commutes with point reflection through the center:
`clamp(shape, -x, -y) = -clamp(shape, x, y)`. -/
theorem clamp_odd_symmetry (w h r a b : ℝ) (hw : 0 ≤ w) (hh : 0 ≤ h)
    (hr : 0 ≤ r) (ha : 0 ≤ a) (hb : 0 ≤ b)
    (hrw : r ≤ w / 2) (hrh : r ≤ h / 2) (x y : ℝ) :
    rectangle_position (-x) (-y) w h = -rectangle_position x y w h ∧
    circle_position (-x) (-y) r = -circle_position x y r ∧
    ellipse_position (-x) (-y) a b = -ellipse_position x y a b ∧
    rounded_rectangle_position (-x) (-y) w h r
      = -rounded_rectangle_position x y w h r :=
  ⟨rectangle_position_neg x y w h hw hh, circle_position_neg r x y,
    ellipse_position_neg a b x y,
    rounded_rectangle_position_neg x y w h r hw hh hrw hrh⟩

theorem clamp_odd_symmetry_witness :
    rectangle_position (-(30 : ℝ)) (-(0 : ℝ)) 40 40
      = -rectangle_position 30 0 40 40 :=
  (clamp_odd_symmetry 40 40 10 20 10 (by norm_num) (by norm_num)
    (by norm_num) (by norm_num) (by norm_num) (by norm_num) (by norm_num)
    30 0).1

/-- With radius `0` the corner circle collapses every strictly exterior
corner point to the corner origin. -/
lemma circle_position_zero_radius (p q : ℝ) (hp : 0 < p) (hq : 0 < q) :
    circle_position p q 0 = (0, 0) := by
  unfold circle_position
  rw [if_pos (by nlinarith [mul_pos hp hp, mul_pos hq hq]),
    if_pos (ne_of_gt hp)]
  simp only
  rw [show (0 : ℝ) * 0 / (q / p * (q / p) + 1) = 0 from by
    rw [zero_mul, zero_div]]
  rw [Real.sqrt_zero, if_pos hp, mul_zero, abs_zero, if_pos hq]

/-- C10: a rounded rectangle with zero corner radius behaves exactly like
the plain rectangle clamp for every non-negative width and height. -/
theorem rounded_rect_zero_radius (w h : ℝ) (hw : 0 ≤ w) (hh : 0 ≤ h)
    (x y : ℝ) :
    rounded_rectangle_position x y w h 0 = rectangle_position x y w h := by
  unfold rounded_rectangle_position
  simp only
  rw [sub_zero, sub_zero]
  by_cases hcor : |x| > w / 2 ∧ |y| > h / 2
  · rw [if_pos hcor]
    obtain ⟨hcx, hcy⟩ := hcor
    have hx : x ≠ 0 := by
      rintro rfl
      rw [abs_zero] at hcx
      linarith
    have hy : y ≠ 0 := by
      rintro rfl
      rw [abs_zero] at hcy
      linarith
    rw [circle_position_zero_radius (|x| - w / 2) (|y| - h / 2)
      (by linarith) (by linarith)]
    simp only
    rw [zero_add, zero_add,
      rectangle_position_eq_clamp x y w h hw hh, Prod.mk.injEq]
    constructor
    · rcases lt_or_gt_of_ne hx with hneg | hpos
      · rw [if_neg (by linarith : ¬x > 0)]
        have hxlt : x < -(w / 2) := by
          rw [abs_of_neg hneg] at hcx
          linarith
        rw [min_eq_left (by linarith), max_eq_left (by linarith)]
      · rw [if_pos hpos]
        have hxgt : x > w / 2 := by
          rw [abs_of_pos hpos] at hcx
          linarith
        rw [min_eq_right (by linarith), max_eq_right (by linarith)]
    · rcases lt_or_gt_of_ne hy with hneg | hpos
      · rw [if_neg (by linarith : ¬y > 0)]
        have hylt : y < -(h / 2) := by
          rw [abs_of_neg hneg] at hcy
          linarith
        rw [min_eq_left (by linarith), max_eq_left (by linarith)]
      · rw [if_pos hpos]
        have hygt : y > h / 2 := by
          rw [abs_of_pos hpos] at hcy
          linarith
        rw [min_eq_right (by linarith), max_eq_right (by linarith)]
  · rw [if_neg hcor]

theorem rounded_rect_zero_radius_witness :
    rounded_rectangle_position 30 30 40 40 0 = rectangle_position 30 30 40 40 :=
  rounded_rect_zero_radius 40 40 (by norm_num) (by norm_num) 30 30

/-- C2: for half-extents `w, h` (the engine receives full extents `2w`,
`2h`) and corner radius `0 ≤ r ≤ min(w, h)`, the rounded-rectangle clamp
is the corner-circle composition when both absolute coordinates strictly
exceed the limits `w - r`, `h - r` — circle-clamp the corner-local point,
translate back, and reapply the original signs per axis — and the plain
rectangle clamp otherwise. -/
theorem rounded_rect_corner_spec (w h r x y : ℝ) (hr : 0 ≤ r)
    (hrw : r ≤ w) (hrh : r ≤ h) :
    rounded_rectangle_position x y (2 * w) (2 * h) r
      = if |x| > w - r ∧ |y| > h - r then
          (Real.sign x
            * ((circle_position (|x| - (w - r)) (|y| - (h - r)) r).1 + (w - r)),
           Real.sign y
            * ((circle_position (|x| - (w - r)) (|y| - (h - r)) r).2 + (h - r)))
        else rectangle_position x y (2 * w) (2 * h) := by
  unfold rounded_rectangle_position
  simp only
  rw [show 2 * w / 2 = w from by ring, show 2 * h / 2 = h from by ring]
  by_cases hcor : |x| > w - r ∧ |y| > h - r
  · rw [if_pos hcor, if_pos hcor]
    obtain ⟨hcx, hcy⟩ := hcor
    have hx : x ≠ 0 := by
      rintro rfl
      rw [abs_zero] at hcx
      linarith
    have hy : y ≠ 0 := by
      rintro rfl
      rw [abs_zero] at hcy
      linarith
    rw [Prod.mk.injEq]
    constructor
    · rcases lt_or_gt_of_ne hx with hneg | hpos
      · rw [if_neg (by linarith : ¬x > 0), Real.sign_of_neg hneg, neg_one_mul]
      · rw [if_pos hpos, Real.sign_of_pos hpos, one_mul]
    · rcases lt_or_gt_of_ne hy with hneg | hpos
      · rw [if_neg (by linarith : ¬y > 0), Real.sign_of_neg hneg, neg_one_mul]
      · rw [if_pos hpos, Real.sign_of_pos hpos, one_mul]
  · rw [if_neg hcor, if_neg hcor]

theorem rounded_rect_corner_spec_witness :
    rounded_rectangle_position 16 18 (2 * 20) (2 * 20) 10 = (16, 18) := by
  have hthm := rounded_rect_corner_spec 20 20 10 16 18 (by norm_num)
    (by norm_num) (by norm_num)
  have hcond : |(16 : ℝ)| > 20 - 10 ∧ |(18 : ℝ)| > 20 - 10 := by
    rw [abs_of_pos (show (0 : ℝ) < 16 from by norm_num),
      abs_of_pos (show (0 : ℝ) < 18 from by norm_num)]
    norm_num
  rw [hthm, if_pos hcond]
  have hc : circle_position (|(16 : ℝ)| - (20 - 10)) (|(18 : ℝ)| - (20 - 10)) 10
      = (6, 8) := by
    rw [show |(16 : ℝ)| - (20 - 10) = 6 from by
        rw [abs_of_pos (show (0 : ℝ) < 16 from by norm_num)]
        norm_num,
      show |(18 : ℝ)| - (20 - 10) = 8 from by
        rw [abs_of_pos (show (0 : ℝ) < 18 from by norm_num)]
        norm_num]
    exact circle_position_inside 10 6 8 (by norm_num)
  rw [hc, Real.sign_of_pos (show (0 : ℝ) < 16 from by norm_num),
    Real.sign_of_pos (show (0 : ℝ) < 18 from by norm_num)]
  norm_num

/-- C8: for a shape name that is none of the four recognized values, the
clamping step of the mousemove handler is the identity on the shape-local
offset, with no error signaled. -/
theorem unknown_shape_passthrough (shape : String) (radius width height : ℝ)
    (h1 : shape ≠ "circle") (h2 : shape ≠ "ellipse")
    (h3 : shape ≠ "rectangle") (h4 : shape ≠ "rounded rectangle")
    (p : ℝ × ℝ) :
    clamp_step shape radius width height p = p := by
  unfold clamp_step
  simp only
  rw [if_neg h4, if_neg h2, if_neg h1, if_neg h3]

theorem unknown_shape_passthrough_witness :
    clamp_step ("triangle") 20 40 40 ((3 : ℝ), (4 : ℝ)) = ((3 : ℝ), (4 : ℝ)) :=
  unknown_shape_passthrough ("triangle") 20 40 40 (by decide) (by decide)
    (by decide) (by decide) ((3 : ℝ), (4 : ℝ))

/-- C4: with the default circle of radius 20, anchor frame-relative
center `(100, 50)`, anchor viewport-absolute center `(120, 70)`, pupil
size `10 × 10`, zero scroll, and a pointer at `(170, 70)`, the shape-local
offset `(50, 0)` clamps to `(20, 0)` and the written position is
`(20 + 100 - 10/2, 0 + 50 - 10/2) = (115, 45)`. -/
theorem default_pipeline_spec :
    circle_position (170 - 120 + 0) (70 - 70 + 0) 20 = (20, 0) ∧
    mousemove_position ("circle") 20 40 40 120 70 100 50 10 10 0 0 170 70
      = (115, 45) ∧
    (115 : ℝ) = 20 + 100 - 10 / 2 ∧ (45 : ℝ) = 0 + 50 - 10 / 2 := by
  have hclamp : circle_position 50 0 20 = (20, 0) := by
    unfold circle_position
    rw [if_pos (by norm_num), if_pos (by norm_num : (50 : ℝ) ≠ 0)]
    simp only
    rw [show (0 : ℝ) / 50 = 0 from by norm_num]
    rw [show (20 : ℝ) * 20 / (0 * 0 + 1) = 400 from by norm_num,
      sqrt_four_hundred]
    norm_num
  refine ⟨?_, ?_, by norm_num, by norm_num⟩
  · rw [show (170 - 120 + 0 : ℝ) = 50 from by norm_num,
      show (70 - 70 + 0 : ℝ) = 0 from by norm_num]
    exact hclamp
  · unfold mousemove_position clamp_step
    simp only
    rw [if_neg (show ¬("circle" : String) = "rectangle" from by decide),
      if_pos trivial,
      if_neg (show ¬("circle" : String) = "ellipse" from by decide),
      if_neg (show ¬("circle" : String) = "rounded rectangle" from by decide)]
    norm_num [hclamp]

end JqEye
